import Mathlib

/-!
Verification of the SCI polygon-avoidance path planner
(engines/sci/engine/kpathing.cpp) against its specification.

The development shallowly embeds the planner's data model and operations:

* points are integer pairs (the engine stores `int16` coordinates; all the
  intermediate products computed by the geometry kernel fit comfortably in
  the C `int` type, so plain `Int` models the arithmetic exactly);
* vertices carry a numeric identity (`vid`) standing for the C pointer
  identity of heap-allocated `Vertex` records;
* a polygon is its SCI type tag together with the cyclic vertex list,
  listed from the circular list's head;
* the A* search loop is given an explicit fuel argument; the termination
  theorem shows a fuel of one more than the vertex count always suffices,
  which is exactly the bound the loop enjoys in the C code;
* `(uint32)sqrt((float)n)` is modelled as the integer square root
  (`isqrt`, proved equal to `Nat.sqrt`), and `uint32` additions reduce
  modulo 2^32.
-/

namespace KPathing

/-- SCI polygon type: total access. -/
def POLY_TOTAL_ACCESS : Nat := 0
/-- SCI polygon type: near-point access. -/
def POLY_NEAREST_ACCESS : Nat := 1
/-- SCI polygon type: barred access. -/
def POLY_BARRED_ACCESS : Nat := 2
/-- SCI polygon type: contained access. -/
def POLY_CONTAINED_ACCESS : Nat := 3

/-- HUGE_DISTANCE, the initial A* cost (0xFFFFFFFF). -/
def HUGE_DISTANCE : Nat := 0xFFFFFFFF

/-- POLY_LAST_POINT, the sentinel coordinate (0x7777). -/
def POLY_LAST_POINT : Int := 0x7777

/-- An integer point (Common::Point). -/
structure Point where
  x : Int
  y : Int
deriving DecidableEq, Repr

/-- A vertex: a point plus an identity standing for the C pointer. -/
structure Vertex where
  vid : Nat
  v : Point
deriving DecidableEq, Repr

/-- A polygon: SCI type tag and cyclic vertex list (head first). -/
structure Polygon where
  type : Nat
  vertices : List Vertex
deriving DecidableEq, Repr

/-- Containment classification (CONT_OUTSIDE / CONT_ON_EDGE / CONT_INSIDE). -/
inductive Cont where
  | Outside
  | OnEdge
  | Inside
deriving DecidableEq, Repr

/-- area: twice the signed area of the triangle (a, b, c). -/
def area (a b c : Point) : Int :=
  (b.x - a.x) * (a.y - c.y) - (c.x - a.x) * (a.y - b.y)

/-- left: c is strictly to the left of the directed line (a, b). -/
def left (a b c : Point) : Bool :=
  decide (0 < area a b c)

/-- collinear: a, b, c lie on one line. -/
def collinear (a b c : Point) : Bool :=
  decide (area a b c = 0)

/-- between: c lies on the closed segment (a, b) (assumes a ≠ b for the
range test, exactly as the C code does). -/
def between (a b c : Point) : Bool :=
  if ¬ collinear a b c then false
  else if a.x ≠ b.x then
    decide ((a.x ≤ c.x ∧ c.x ≤ b.x) ∨ (a.x ≥ c.x ∧ c.x ≥ b.x))
  else
    decide ((a.y ≤ c.y ∧ c.y ≤ b.y) ∨ (a.y ≥ c.y ∧ c.y ≥ b.y))

/-- intersect_proper: the open segments (a, b) and (c, d) cross transversally. -/
def intersect_proper (a b c d : Point) : Bool :=
  ((left a b c && left b a d) || (left a b d && left b a c)) &&
  ((left c d a && left d c b) || (left c d b && left d c a))

/-- polyEdges: the directed edge list of a cyclic vertex sequence, one edge
per vertex, from the head, wrapping back to the head; this is the edge
sequence CLIST_FOREACH walks.  A single-vertex polygon yields the
degenerate edge (v, v), matching CLIST_NEXT on a one-element circle. -/
def edgesAux (first : Point) : Point → List Point → List (Point × Point)
  | cur, [] => [(cur, first)]
  | cur, n :: rest => (cur, n) :: edgesAux first n rest

/-- polyEdges on the list of points of the cyclic vertex sequence. -/
def polyEdges : List Point → List (Point × Point)
  | [] => []
  | v :: t => edgesAux v v t

/-- crossLoop: the ray-crossing loop of `contained`.  Walks the edges
accumulating left and right crossing counts; returns `none` on the early
exit taken when p coincides with a vertex. -/
def crossLoop (p : Point) : List (Point × Point) → Nat → Nat → Option (Nat × Nat)
  | [], lcross, rcross => some (lcross, rcross)
  | (v1, v2) :: es, lcross, rcross =>
    if p = v1 then none
    else
      let rstrad := decide (v1.y < p.y) != decide (v2.y < p.y)
      let lstrad := decide (v1.y > p.y) != decide (v2.y > p.y)
      if lstrad || rstrad then
        let x0 := v2.x * v1.y - v1.x * v2.y + (v1.x - v2.x) * p.y
        let xq0 := v1.y - v2.y
        let x := if xq0 < 0 then -x0 else x0
        let xq := if xq0 < 0 then -xq0 else xq0
        if rstrad && decide (x > xq * p.x) then crossLoop p es lcross (rcross + 1)
        else if lstrad && decide (x < xq * p.x) then crossLoop p es (lcross + 1) rcross
        else crossLoop p es lcross rcross
      else crossLoop p es lcross rcross

/-- pointsOf: the point sequence of a polygon's cyclic vertex list. -/
def Polygon.points (poly : Polygon) : List Point :=
  poly.vertices.map Vertex.v

/-- contained: the polygon containment test, including the inversion of the
Inside/Outside answer for contained-access polygons. -/
def contained (p : Point) (poly : Polygon) : Cont :=
  match crossLoop p (polyEdges poly.points) 0 0 with
  | none => .OnEdge
  | some (lcross, rcross) =>
    if (lcross + rcross) % 2 = 1 then .OnEdge
    else if rcross % 2 = 1 then
      if poly.type = POLY_CONTAINED_ACCESS then .Outside else .Inside
    else
      if poly.type = POLY_CONTAINED_ACCESS then .Inside else .Outside

/-- rayCast: the geometric (un-inverted) ray-crossing classification of a
point against a cyclic point sequence: what `contained` computes before the
contained-access inversion is applied. -/
def rayCast (p : Point) (vs : List Point) : Cont :=
  match crossLoop p (polyEdges vs) 0 0 with
  | none => .OnEdge
  | some (lcross, rcross) =>
    if (lcross + rcross) % 2 = 1 then .OnEdge
    else if rcross % 2 = 1 then .Inside
    else .Outside

/-- Default vertex used by positional lookups (never reached on indices
produced by the model itself). -/
instance : Inhabited Point := ⟨⟨0, 0⟩⟩

/-- Default vertex instance. -/
instance : Inhabited Vertex := ⟨⟨0, ⟨0, 0⟩⟩⟩

/-- reverseKeepHead: CircularVertexList::reverse swaps every next/prev
pointer and keeps the head, so the order walked from the head becomes the
head followed by the remaining vertices in reverse. -/
def reverseKeepHead {α : Type} : List α → List α
  | [] => []
  | h :: t => h :: t.reverse

/-- areaSum: the fan sum of polygon_area, accumulating
area(first, v, next v) while walking from the second vertex. -/
def areaSum (v0 : Point) : List Point → Int
  | a :: b :: t => area v0 a b + areaSum v0 (b :: t)
  | _ => 0

/-- polygon_area: twice the signed area of a polygon. -/
def polygon_area (poly : Polygon) : Int :=
  match poly.points with
  | [] => 0
  | v0 :: rest => areaSum v0 rest

/-- fix_vertex_order: contained-access polygons must be clockwise (negative
area), all other types anti-clockwise (positive area); reverse when wrong. -/
def fix_vertex_order (poly : Polygon) : Polygon :=
  let a := polygon_area poly
  if (0 < a ∧ poly.type = POLY_CONTAINED_ACCESS) ∨
     (a < 0 ∧ poly.type ≠ POLY_CONTAINED_ACCESS) then
    { poly with vertices := reverseKeepHead poly.vertices }
  else poly

/-- convert_polygon: converts a raw SCI polygon (type tag and point list)
into a Polygon.  A polygon with no vertices is skipped (None).  Vertices
are pushed with insertHead, so the circular list walked from the head is
the reverse of the input order; vertex identities are assigned in creation
order starting from n0 (modelling heap allocation); finally the vertex
order is normalised by fix_vertex_order.  The game-specific workaround
branches (they read the engine's game id and room number, host state
outside the planner) are not part of the model. -/
def convert_polygon (ty : Nat) (pts : List Point) (n0 : Nat) : Option Polygon :=
  if pts.isEmpty then none
  else some (fix_vertex_order
    ⟨ty, (pts.enum.map (fun ip => Vertex.mk (n0 + ip.1) ip.2)).reverse⟩)

/-- kAvoidPath with three arguments: the static polygon hit-test.  The
converted polygon's type is overridden to barred access before the
containment test, so the contained-access inversion never applies. -/
def kAvoidPath3 (start : Point) (ty : Nat) (pts : List Point) : Option Bool :=
  match convert_polygon ty pts 0 with
  | none => none
  | some poly =>
    some (decide (contained start { poly with type := POLY_BARRED_ACCESS } ≠ .Outside))

/-- FloatPoint: the C float pair, modelled with exact rationals. -/
structure FloatPoint where
  x : ℚ
  y : ℚ
deriving DecidableEq, Repr

/-- FloatPoint::toPoint: (int16)(x + 0.5) — the C cast truncates toward
zero.  `Rat.floor` on the nonnegative side agrees with truncation; for the
negative side Int division by the denominator truncates toward zero exactly
as the cast does. -/
def ratTrunc (q : ℚ) : Int := q.num / q.den

/-- toPoint on a FloatPoint. -/
def FloatPoint.toPoint (f : FloatPoint) : Point :=
  ⟨ratTrunc (f.x + 1/2), ratTrunc (f.y + 1/2)⟩

/-- find_free_point: searches near the (rational) point f for an integer
point not contained in the polygon: first the rounded point, then the four
surrounding lattice points (x, y), (x+1, y), (x+1, y+1), (x, y+1) in that
order; None models PF_FATAL. -/
def find_free_point (f : FloatPoint) (poly : Polygon) : Option Point :=
  let p0 : Point := ⟨⌊f.x + 1/2⌋, ⌊f.y + 1/2⌋⟩
  if contained p0 poly ≠ .Inside then some p0
  else
    let p1 : Point := ⟨⌊f.x⌋, ⌊f.y⌋⟩
    if contained p1 poly = .Inside then
      let p2 : Point := ⟨p1.x + 1, p1.y⟩
      if contained p2 poly = .Inside then
        let p3 : Point := ⟨p2.x, p2.y + 1⟩
        if contained p3 poly = .Inside then
          let p4 : Point := ⟨p3.x - 1, p3.y⟩
          if contained p4 poly = .Inside then none
          else some p4
        else some p3
      else some p2
    else some p1

/-- sqrDist on integer points (Common::Point::sqrDist). -/
def sqrDistP (a b : Point) : Nat :=
  ((a.x - b.x) * (a.x - b.x) + (a.y - b.y) * (a.y - b.y)).toNat

/-- isqrtAux: downward scan for the largest k at most the fuel with
k * k ≤ n (a structurally recursive integer square root, so that the
kernel can evaluate searches on concrete scenes). -/
def isqrtAux : Nat → Nat → Nat
  | 0, _ => 0
  | fuel + 1, n => if (fuel + 1) * (fuel + 1) ≤ n then fuel + 1 else isqrtAux fuel n

/-- isqrt: the integer square root (shown equal to Nat.sqrt below). -/
def isqrt (n : Nat) : Nat := isqrtAux n n

/-- pdist: (uint32)sqrt((float)sqrDist(a, b)), modelled as the integer
square root of the squared distance. -/
def pdist (a b : Point) : Nat := isqrt (sqrDistP a b)

/-- edgeOnScreenBorder: an edge lies on the screen border. -/
def edgeOnScreenBorder (w h : Int) (p q : Point) : Bool :=
  (p.x == 0 && q.x == 0) || (p.y == 0 && q.y == 0) ||
  (p.x == w - 1 && q.x == w - 1) || (p.y == h - 1 && q.y == h - 1)

/-- pointOnScreenBorder: a point lies on the screen border. -/
def pointOnScreenBorder (w h : Int) (p : Point) : Bool :=
  (p.x == 0) || (p.x == w - 1) || (p.y == 0) || (p.y == h - 1)

/-- findNearPoint's per-edge candidate: project p onto the edge (p1, p2)
(parametric, clamped to the segment).  The parameter u is the rational dot
product over the squared edge length; a degenerate zero-length edge gives a
zero denominator, which in C is a float division producing NaN (undefined
downstream); rational division by zero yields 0 here, and the theorems
using findNearPoint do not depend on that degenerate case. -/
def nearPointOnEdge (p : Point) (p1 p2 : Point) : FloatPoint :=
  let u : ℚ := (((p.x - p1.x) * (p2.x - p1.x) + (p.y - p1.y) * (p2.y - p1.y) : Int) : ℚ) /
    ((sqrDistP p1 p2 : Nat) : ℚ)
  let u := if u < 0 then 0 else u
  let u := if u > 1 then 1 else u
  ⟨(p1.x : ℚ) + u * ((p2.x : ℚ) - (p1.x : ℚ)), (p1.y : ℚ) + u * ((p2.y : ℚ) - (p1.y : ℚ))⟩

/-- findNearPoint's edge scan: walk the polygon's edges, skipping edges on
the screen border (except for contained-access polygons), and keep the
projection whose integer rounding is strictly closest to p (the first such
on ties).  near_p starts as the default float point (0, 0) with distance
HUGE_DISTANCE, exactly as the C locals are initialised. -/
def nearScan (w h : Int) (ty : Nat) (p : Point) :
    List (Point × Point) → FloatPoint → Nat → FloatPoint
  | [], near_p, _ => near_p
  | (p1, p2) :: es, near_p, dist =>
    if ty ≠ POLY_CONTAINED_ACCESS ∧ edgeOnScreenBorder w h p1 p2 then
      nearScan w h ty p es near_p dist
    else
      let new_point := nearPointOnEdge p p1 p2
      let new_dist := sqrDistP p new_point.toPoint
      if new_dist < dist then nearScan w h ty p es new_point new_dist
      else nearScan w h ty p es near_p dist

/-- findNearPoint: the near point of a point contained in a polygon; None
models PF_FATAL (propagated from find_free_point). -/
def findNearPoint (w h : Int) (p : Point) (poly : Polygon) : Option Point :=
  find_free_point (nearScan w h poly.type p (polyEdges poly.points) ⟨0, 0⟩ HUGE_DISTANCE) poly

/-- nearbyPolygon: the point is within one pixel (4-neighbourhood) of the
outside of a contained-access polygon. -/
def nearbyPolygon (p : Point) (poly : Polygon) : Bool :=
  decide (contained ⟨p.x, p.y + 1⟩ poly ≠ .Inside) ||
  decide (contained ⟨p.x, p.y - 1⟩ poly ≠ .Inside) ||
  decide (contained ⟨p.x + 1, p.y⟩ poly ≠ .Inside) ||
  decide (contained ⟨p.x - 1, p.y⟩ poly ≠ .Inside)

/-- Result of a fixup pass: the surviving polygon list, the (possibly
relocated) point and the recorded prepend/append point; fatal models the
NULL return after a PF_FATAL from findNearPoint; hang models the infinite
loop the C code enters when it re-tests the same polygon forever after a
second containment (the `continue` skips the iterator increment). -/
inductive FixR where
  | ok (polys : List Polygon) (np : Point) (moved : Option Point)
  | fatal
  | hang
deriving DecidableEq, Repr

/-- consFix: keep a polygon at the front of a fixup result's polygon list. -/
def consFix (poly : Polygon) : FixR → FixR
  | .ok ps np m => .ok (poly :: ps) np m
  | r => r

/-- fixup_start_point's polygon walk.  Total-access polygons containing the
start are deleted; contained-access polygons whose (inverted) containment
reports Inside and which are not within one pixel are deleted; otherwise
the contained/barred/nearest cases relocate a start strictly Inside via
findNearPoint and record the original start as the prepend point. -/
def fixup_start_go (w h : Int) (start : Point) :
    List Polygon → Point → Option Point → FixR
  | [], newStart, pre => .ok [] newStart pre
  | poly :: rest, newStart, pre =>
    let cont := contained start poly
    if poly.type = POLY_TOTAL_ACCESS then
      if cont ≠ .Outside then fixup_start_go w h start rest newStart pre
      else consFix poly (fixup_start_go w h start rest newStart pre)
    else if poly.type = POLY_CONTAINED_ACCESS ∧ cont = .Inside ∧
        ¬ nearbyPolygon start poly then
      fixup_start_go w h start rest newStart pre
    else if poly.type = POLY_CONTAINED_ACCESS ∨ poly.type = POLY_BARRED_ACCESS ∨
        poly.type = POLY_NEAREST_ACCESS then
      if cont = .Inside then
        if pre ≠ none then .hang
        else
          match findNearPoint w h start poly with
          | none => .fatal
          | some ns => consFix poly (fixup_start_go w h start rest ns (some start))
      else consFix poly (fixup_start_go w h start rest newStart pre)
    else consFix poly (fixup_start_go w h start rest newStart pre)

/-- fixup_end_point's polygon walk.  Total-access polygons containing the
end are deleted; a contained/barred/nearest polygon containing the end (not
Outside) relocates it via findNearPoint, and only for a nearest-access
polygon the original end is recorded as the append point. -/
def fixup_end_go (w h : Int) (e : Point) :
    List Polygon → Point → Option Point → FixR
  | [], newEnd, app => .ok [] newEnd app
  | poly :: rest, newEnd, app =>
    let cont := contained e poly
    if poly.type = POLY_TOTAL_ACCESS then
      if cont ≠ .Outside then fixup_end_go w h e rest newEnd app
      else consFix poly (fixup_end_go w h e rest newEnd app)
    else if poly.type = POLY_CONTAINED_ACCESS ∨ poly.type = POLY_BARRED_ACCESS ∨
        poly.type = POLY_NEAREST_ACCESS then
      if cont ≠ .Outside then
        if app ≠ none then .hang
        else
          match findNearPoint w h e poly with
          | none => .fatal
          | some ne' =>
            consFix poly (fixup_end_go w h e rest ne'
              (if poly.type = POLY_NEAREST_ACCESS then some e else app))
      else consFix poly (fixup_end_go w h e rest newEnd app)
    else consFix poly (fixup_end_go w h e rest newEnd app)

/-- findVertexPolys: the first vertex of the polygon set whose point equals
p, in polygon order and cyclic vertex order (merge_point's first scan). -/
def findVertexPolys (polys : List Polygon) (p : Point) : Option Vertex :=
  polys.findSome? (fun poly => poly.vertices.find? (fun vx => vx.v == p))

/-- findEdgeIdx: the first position k of the polygon's cyclic vertex list
such that p lies between vertex k and its cyclic successor. -/
def findEdgeIdx (vs : List Vertex) (p : Point) : Option Nat :=
  (List.range vs.length).find? (fun k =>
    between (vs.getD k default).v (vs.getD ((k + 1) % vs.length) default).v p)

/-- mergeSplit: the edge-splitting pass of merge_point: the first polygon
with at least two vertices owning an edge p lies on has the new vertex
inserted just after that edge's first vertex. -/
def mergeSplit (vnew : Vertex) : List Polygon → Option (List Polygon)
  | [] => none
  | poly :: rest =>
    if 2 ≤ poly.vertices.length then
      match findEdgeIdx poly.vertices vnew.v with
      | some k => some ({ poly with vertices := poly.vertices.insertIdx (k + 1) vnew } :: rest)
      | none => (mergeSplit vnew rest).map (poly :: ·)
    else (mergeSplit vnew rest).map (poly :: ·)

/-- merge_point: merges a point into the polygon set: return an existing
equal vertex, else split an edge the point lies on, else add the point as
a new single-vertex barred-access polygon at the front of the list.  nid
is the next fresh vertex identity (the model of heap allocation). -/
def merge_point (polys : List Polygon) (nid : Nat) (p : Point) :
    List Polygon × Nat × Vertex :=
  match findVertexPolys polys p with
  | some vx => (polys, nid, vx)
  | none =>
    let vnew : Vertex := ⟨nid, p⟩
    match mergeSplit vnew polys with
    | some polys2 => (polys2, nid + 1, vnew)
    | none => (⟨POLY_BARRED_ACCESS, [vnew]⟩ :: polys, nid + 1, vnew)

/-- vertexIndex: the flat vertex array built from all polygons in order. -/
def vertexIndex (polys : List Polygon) : List Vertex :=
  (polys.map Polygon.vertices).flatten

/-- The pathfinding state after scene building: polygon set, chosen start
and end vertices, recorded prepend/append points and the screen bounds. -/
structure PFState where
  polygons : List Polygon
  startV : Vertex
  endV : Vertex
  prependPoint : Option Point
  appendPoint : Option Point
  width : Int
  height : Int

/-- locateIn: position of the vertex with the given identity. -/
def locateIn (vs : List Vertex) (id : Nat) : Option Nat :=
  vs.findIdx? (fun vx => vx.vid == id)

/-- locate: the polygon owning the vertex with the given identity, with the
vertex's position in its cyclic list (the model of following the C vertex
pointer to its circular list). -/
def locate (polys : List Polygon) (id : Nat) : Option (Polygon × Nat) :=
  match polys with
  | [] => none
  | poly :: rest =>
    match locateIn poly.vertices id with
    | some k => some (poly, k)
    | none => locate rest id

/-- nextPt: the point of CLIST_NEXT of the vertex at position k. -/
def Polygon.nextPt (poly : Polygon) (k : Nat) : Point :=
  (poly.vertices.getD ((k + 1) % poly.vertices.length) default).v

/-- prevPt: the point of CLIST_PREV of the vertex at position k. -/
def Polygon.prevPt (poly : Polygon) (k : Nat) : Point :=
  (poly.vertices.getD ((k + poly.vertices.length - 1) % poly.vertices.length) default).v

/-- insideV: the `inside` test — whether the line from p to the vertex
enters the vertex's polygon interior locally at the vertex.  A vertex with
no edges (single-vertex polygon) never blocks. -/
def insideV (polys : List Polygon) (p : Point) (vx : Vertex) : Bool :=
  match locate polys vx.vid with
  | none => false
  | some (poly, k) =>
    if 2 ≤ poly.vertices.length then
      let prev := poly.prevPt k
      let next := poly.nextPt k
      let cur := vx.v
      if left prev cur next then left cur next p && left prev cur p
      else left cur next p || left prev cur p
    else false

/-- edgeBlocks: the inner exclusion test of visible_vertices for one edge
vertex e against the sight segment (a, b): when e's point lies between a
and b the segment passes through a vertex, excluded when it enters e's
polygon locally at e from either endpoint; otherwise excluded when the
segment properly intersects the edge (e, next e). -/
def edgeBlocks (polys : List Polygon) (a b : Point) (e : Vertex) : Bool :=
  match locate polys e.vid with
  | none => false
  | some (poly, k) =>
    if 2 ≤ poly.vertices.length then
      if between a b e.v then insideV polys a e || insideV polys b e
      else intersect_proper a b e.v (poly.nextPt k)
    else false

/-- visible_vertices: every vertex of the index visible from cur: not cur
itself, not blocked locally at either endpoint, and not blocked by any
polygon edge.  Surviving vertices are pushed to the front of the result,
as the C code does. -/
def visible_vertices (s : PFState) (cur : Vertex) : List Vertex :=
  (vertexIndex s.polygons).foldl (fun acc vx =>
    if vx.vid == cur.vid then acc
    else if insideV s.polygons vx.v cur then acc
    else if insideV s.polygons cur.v vx then acc
    else if (vertexIndex s.polygons).all
        (fun e => !edgeBlocks s.polygons cur.v vx.v e) then vx :: acc
    else acc) []

/-- The A* working state: open and closed vertex lists and the cost and
predecessor maps, keyed by vertex identity (the C code stores them in the
Vertex records themselves). -/
structure Search where
  openS : List Vertex
  closedS : List Vertex
  costG : Nat → Nat
  costF : Nat → Nat
  pathPrev : Nat → Option Vertex

/-- selectMin: the open vertex with the least costF, the frontmost on
ties, none when every cost is at least HUGE_DISTANCE (the C code would
dereference a null vertex there; on states reached from a real search the
case does not arise). -/
def selectMin (costF : Nat → Nat) (l : List Vertex) : Option Vertex :=
  (l.foldl (fun acc vx =>
    if costF vx.vid < acc.2 then (some vx, costF vx.vid) else acc)
    ((none : Option Vertex), HUGE_DISTANCE)).1

/-- relaxNew: the cost relaxation of one visible vertex vx through the
selected vertex m: when the tentative distance improves on vx's recorded
cost, update its costs and predecessor.  uint32 additions reduce modulo
2^32. -/
def relaxNew (s : PFState) (m : Vertex) (vx : Vertex) (st1 : Search) : Search :=
  if (st1.costG m.vid + pdist m.v vx.v) % 2 ^ 32 < st1.costG vx.vid then
    { st1 with
      costG := fun i => if i = vx.vid then (st1.costG m.vid + pdist m.v vx.v) % 2 ^ 32
        else st1.costG i,
      costF := fun i => if i = vx.vid then
          ((st1.costG m.vid + pdist m.v vx.v) % 2 ^ 32 + pdist vx.v s.endV.v) % 2 ^ 32
        else st1.costF i,
      pathPrev := fun i => if i = vx.vid then some m else st1.pathPrev i }
  else st1

/-- relaxStep: A*'s treatment of one visible vertex: skip it when closed,
skip it when avoiding the screen border unless it is the end vertex, add
it to the open set when absent, and relax its costs through m. -/
def relaxStep (s : PFState) (avoid : Bool) (m : Vertex) (st : Search) (vx : Vertex) : Search :=
  if st.closedS.any (fun u => u.vid == vx.vid) then st
  else if avoid && (!(vx.vid == s.endV.vid) && pointOnScreenBorder s.width s.height vx.v) then st
  else relaxNew s m vx (if st.openS.any (fun u => u.vid == vx.vid) then st
    else { st with openS := vx :: st.openS })

/-- astarBody: one expansion: move the selected vertex from the open to
the closed set, then relax all its visible vertices. -/
def astarBody (s : PFState) (avoid : Bool) (st : Search) (m : Vertex) : Search :=
  let st1 := { st with
    closedS := m :: st.closedS,
    openS := st.openS.eraseP (fun u => u.vid == m.vid) }
  (visible_vertices s m).foldl (relaxStep s avoid m) st1

/-- astarLoop: the A* main loop with explicit fuel; the Bool is true when
the loop reached one of its own exits (end selected or open set empty)
within the given fuel. -/
def astarLoop (s : PFState) (avoid : Bool) : Nat → Search → Search × Bool
  | 0, st => (st, false)
  | fuel + 1, st =>
    if st.openS.isEmpty then (st, true)
    else
      match selectMin st.costF st.openS with
      | none => (st, true)
      | some m =>
        if m.vid == s.endV.vid then (st, true)
        else astarLoop s avoid fuel (astarBody s avoid st m)

/-- AStar: initialise the search (open = {start}, costG(start) = 0,
costF(start) = the straight-line estimate, all other costs HUGE_DISTANCE,
no predecessors) and run the loop. -/
def AStar (s : PFState) (avoid : Bool) (fuel : Nat) : Search × Bool :=
  astarLoop s avoid fuel
    { openS := [s.startV]
      closedS := []
      costG := fun i => if i = s.startV.vid then 0 else HUGE_DISTANCE
      costF := fun i => if i = s.startV.vid then pdist s.startV.v s.endV.v
        else HUGE_DISTANCE
      pathPrev := fun _ => none }

/-- predChain: the predecessor walk of output_path from a vertex back to
the search root, with fuel (the C loop walks raw pointers). -/
def predChain (pr : Nat → Option Vertex) : Nat → Vertex → Option (List Vertex)
  | 0, _ => none
  | fuel + 1, vx =>
    match pr vx.vid with
    | none => some [vx]
    | some u => (predChain pr fuel u).map (vx :: ·)

/-- sentinelPt: the terminating sentinel point (0x7777, 0x7777). -/
def sentinelPt : Point := ⟨POLY_LAST_POINT, POLY_LAST_POINT⟩

/-- output_path: when the end vertex has no predecessor the path is the
truncated fallback (prepend point or start, then start, then sentinel);
otherwise the predecessor chain reversed into start-to-end order, wrapped
in the optional prepend and append points and the sentinel. -/
def output_path (s : PFState) (st : Search) (fuel : Nat) : Option (List Point) :=
  match st.pathPrev s.endV.vid with
  | none => some [s.prependPoint.getD s.startV.v, s.startV.v, sentinelPt]
  | some _ =>
    (predChain st.pathPrev fuel s.endV).map (fun chain =>
      s.prependPoint.toList ++ (chain.map Vertex.v).reverse ++
      s.appendPoint.toList ++ [sentinelPt])

/-- convertAll: convert every raw polygon, skipping empty ones, threading
the fresh vertex identity counter. -/
def convertAll : List (Nat × List Point) → Nat → List Polygon × Nat
  | [], n => ([], n)
  | (ty, pts) :: rest, n =>
    match convert_polygon ty pts n with
    | none => convertAll rest n
    | some poly =>
      let (ps, n2) := convertAll rest (n + pts.length)
      (poly :: ps, n2)

/-- Result of convert_polygon_set: a state, a failed fixup (NULL return,
the caller falls back to the direct path), or a hanging fixup loop. -/
inductive ConvRes where
  | ok (s : PFState) (nid : Nat)
  | fail
  | hang

/-- convert_polygon_set for optimisation levels 1 and 2: convert the raw
polygons, fix up the start and end points, and merge both into the polygon
set.  The keyboard level (opt = 0) takes a different branch built on the
floating-point nearest_intersection scan; no claim exercises it and it is
not modelled (fail here).  The engine-specific LSL5 room-660 workaround
(keyed on the game id and room, host state outside the planner) is not
part of the model. -/
def convert_polygon_set (raw : List (Nat × List Point)) (start endP : Point)
    (w h : Int) (opt : Nat) : ConvRes :=
  let c := convertAll raw 0
  if opt = 0 then .fail
  else
    match fixup_start_go w h start c.1 start none with
    | .fatal => .fail
    | .hang => .hang
    | .ok polys1 newStart pre =>
      match fixup_end_go w h endP polys1 endP none with
      | .fatal => .fail
      | .hang => .hang
      | .ok polys2 newEnd app =>
        let m1 := merge_point polys2 c.2 newStart
        let m2 := merge_point m1.1 m1.2.1 newEnd
        .ok { polygons := m2.1, startV := m1.2.2, endV := m2.2.2,
              prependPoint := pre, appendPoint := app,
              width := w, height := h } m2.2.1

/-- avoidPath: the main planning call (kAvoidPath, 6-to-8-argument form):
build the state, run A* avoiding screen edges, and assemble the output
path; a failed state build returns the direct start-end path; None models
the non-terminating fixup loop. -/
def avoidPath (raw : List (Nat × List Point)) (start endP : Point)
    (w h : Int) (opt : Nat) : Option (List Point) :=
  match convert_polygon_set raw start endP w h opt with
  | .hang => none
  | .fail => some [start, endP, sentinelPt]
  | .ok s _ =>
    let fuel := (vertexIndex s.polygons).length + 1
    output_path s (AStar s true fuel).1 fuel

/-- int16Range: the coordinate range of the engine's points (they are read
through toSint16). -/
def int16Range (p : Point) : Prop :=
  -32768 ≤ p.x ∧ p.x ≤ 32767 ∧ -32768 ≤ p.y ∧ p.y ≤ 32767

instance (p : Point) : Decidable (int16Range p) := by
  unfold int16Range
  infer_instance

/-- Witness polygon for C1: a contained-access square. -/
def cPolyW : Polygon :=
  ⟨POLY_CONTAINED_ACCESS, [⟨0, ⟨0, 0⟩⟩, ⟨1, ⟨0, 10⟩⟩, ⟨2, ⟨10, 10⟩⟩, ⟨3, ⟨10, 0⟩⟩]⟩

/-- Witness polygon input for C9: the square declared contained-access. -/
def ptsW : List Point := [⟨0, 0⟩, ⟨0, 10⟩, ⟨10, 10⟩, ⟨10, 0⟩]

/-- Witness converted polygon for C9, as convert_polygon produces it. -/
def polyW : Polygon :=
  ⟨3, [⟨3, ⟨10, 0⟩⟩, ⟨2, ⟨10, 10⟩⟩, ⟨1, ⟨0, 10⟩⟩, ⟨0, ⟨0, 0⟩⟩]⟩

/-- Witness state for C4: a search that never reached the end vertex. -/
def pfW : PFState :=
  { polygons := [], startV := ⟨0, ⟨1, 2⟩⟩, endV := ⟨1, ⟨3, 4⟩⟩,
    prependPoint := none, appendPoint := none, width := 320, height := 190 }

/-- Witness search for C4: empty predecessor map. -/
def searchW : Search :=
  { openS := [], closedS := [], costG := fun _ => HUGE_DISTANCE,
    costF := fun _ => HUGE_DISTANCE, pathPrev := fun _ => none }

/-- Witness polygon for C6: a nearest-access square containing (5, 5). -/
def nPolyW : Polygon :=
  ⟨POLY_NEAREST_ACCESS, [⟨0, ⟨0, 0⟩⟩, ⟨1, ⟨0, 10⟩⟩, ⟨2, ⟨10, 10⟩⟩, ⟨3, ⟨10, 0⟩⟩]⟩

/-- Witness state for C10: two single-vertex polygons. -/
def pfW2 : PFState :=
  { polygons := [⟨2, [⟨0, ⟨1, 1⟩⟩]⟩, ⟨2, [⟨1, ⟨2, 2⟩⟩]⟩],
    startV := ⟨0, ⟨1, 1⟩⟩, endV := ⟨1, ⟨2, 2⟩⟩,
    prependPoint := none, appendPoint := none, width := 320, height := 190 }

/-- SInv: the A* loop invariant of the termination argument: every open or
closed vertex comes from the vertex index, identities in each set are
duplicate-free, and the two sets are disjoint by identity. -/
def SInv (s : PFState) (st : Search) : Prop :=
  (∀ w ∈ st.openS, w ∈ vertexIndex s.polygons) ∧
  (∀ w ∈ st.openS, ∀ u ∈ st.closedS, w.vid ≠ u.vid) ∧
  (st.closedS.map Vertex.vid).Nodup ∧
  (∀ u ∈ st.closedS, u ∈ vertexIndex s.polygons) ∧
  (st.openS.map Vertex.vid).Nodup

/-- BInv: the screen-border invariant maintained when avoidScreenEdge is
set: every open vertex is the start, the end, or off the screen border,
and every recorded predecessor is the start or off the border. -/
def BInv (s : PFState) (st : Search) : Prop :=
  (∀ w ∈ st.openS, w.vid = s.startV.vid ∨ w.vid = s.endV.vid ∨
    pointOnScreenBorder s.width s.height w.v = false) ∧
  (∀ (i : Nat) (u : Vertex), st.pathPrev i = some u → u.vid = s.startV.vid ∨
    pointOnScreenBorder s.width s.height u.v = false)

/-- twoPointState: the pathfinding state convert_polygon_set builds for a
polygon-free scene: the merged start and end as two single-vertex
barred-access polygons (end merged last, so at the front). -/
def twoPointState (a b : Point) (w h : Int) : PFState :=
  { polygons := [⟨POLY_BARRED_ACCESS, [⟨1, b⟩]⟩, ⟨POLY_BARRED_ACCESS, [⟨0, a⟩]⟩],
    startV := ⟨0, a⟩, endV := ⟨1, b⟩, prependPoint := none, appendPoint := none,
    width := w, height := h }

/-- twoPointInit: AStar's initial search state on the two-point scene. -/
def twoPointInit (a b : Point) : Search :=
  { openS := [⟨0, a⟩], closedS := [],
    costG := fun i => if i = 0 then 0 else HUGE_DISTANCE,
    costF := fun i => if i = 0 then pdist a b else HUGE_DISTANCE,
    pathPrev := fun _ => none }

/-- twoPointAfter: the search state after expanding the start vertex on the
two-point scene. -/
def twoPointAfter (a b : Point) : Search :=
  { openS := [⟨1, b⟩], closedS := [⟨0, a⟩],
    costG := fun i => if i = 1 then (0 + pdist a b) % 2 ^ 32
      else if i = 0 then 0 else HUGE_DISTANCE,
    costF := fun i => if i = 1 then ((0 + pdist a b) % 2 ^ 32 + pdist b b) % 2 ^ 32
      else if i = 0 then pdist a b else HUGE_DISTANCE,
    pathPrev := fun i => if i = 1 then some ⟨0, a⟩ else none }

/-- isqrtAux's result squared never exceeds n. -/
lemma isqrtAux_sq_le : ∀ (fuel n : Nat), isqrtAux fuel n * isqrtAux fuel n ≤ n
  | 0, n => Nat.zero_le n
  | fuel + 1, n => by
    unfold isqrtAux
    split_ifs with h
    · exact h
    · exact isqrtAux_sq_le fuel n

/-- isqrtAux's result is the floor square root when the fuel bounds it. -/
lemma isqrtAux_lt_sq : ∀ (fuel n : Nat), n < (fuel + 1) * (fuel + 1) →
    n < (isqrtAux fuel n + 1) * (isqrtAux fuel n + 1)
  | 0, n, h => h
  | fuel + 1, n, h => by
    unfold isqrtAux
    split_ifs with hle
    · exact h
    · exact isqrtAux_lt_sq fuel n (by omega)

/-- isqrt agrees with Mathlib's Nat.sqrt. -/
lemma isqrt_eq_sqrt (n : Nat) : isqrt n = Nat.sqrt n := by
  refine Nat.eq_sqrt.mpr ⟨isqrtAux_sq_le n n, isqrtAux_lt_sq n n ?_⟩
  nlinarith

/-- edgesAux yields one edge per vertex: the first components are the
vertices walked, starting at `cur`. -/
lemma map_fst_edgesAux (f : Point) (c : Point) (l : List Point) :
    (edgesAux f c l).map Prod.fst = c :: l := by
  induction l generalizing c with
  | nil => rfl
  | cons n rest ih => simp [edgesAux, ih]

/-- polyEdges yields one edge per vertex, in vertex order. -/
lemma map_fst_polyEdges (vs : List Point) :
    (polyEdges vs).map Prod.fst = vs := by
  cases vs with
  | nil => rfl
  | cons v t => simp [polyEdges, map_fst_edgesAux]

/-- crossLoop takes its early exit exactly on the vertices of the walked
edges. -/
lemma crossLoop_eq_none_of_mem (p : Point) (es : List (Point × Point))
    (hm : p ∈ es.map Prod.fst) : ∀ lc rc, crossLoop p es lc rc = none := by
  induction es with
  | nil => simp at hm
  | cons e rest ih =>
    intro lc rc
    obtain ⟨v1, v2⟩ := e
    simp only [List.map_cons, List.mem_cons] at hm
    rcases hm with h1 | h2
    · simp [crossLoop, h1]
    · unfold crossLoop
      split
      · rfl
      · dsimp only
        split_ifs <;> exact ih h2 _ _

/-- C1: for a contained-access polygon, `contained` answers Inside exactly
when the un-inverted ray-crossing classification is Outside and Outside
exactly when it is Inside; and whenever the query point is one of a
polygon's vertices, or the total crossing count is odd (the ray-cast
classification is OnEdge), `contained` answers OnEdge for a polygon of any
type: the inversion never applies to the OnEdge result. -/
theorem contained_inversion_law (poly : Polygon) (p : Point)
    (h : poly.type = POLY_CONTAINED_ACCESS) :
    ((contained p poly = .Inside ↔ rayCast p poly.points = .Outside) ∧
     (contained p poly = .Outside ↔ rayCast p poly.points = .Inside)) ∧
    (∀ q : Polygon, p ∈ q.points ∨ rayCast p q.points = .OnEdge →
      contained p q = .OnEdge) := by
  constructor
  · rcases hcl : crossLoop p (polyEdges poly.points) 0 0 with _ | ⟨lc, rc⟩
    · unfold contained rayCast
      rw [hcl]
      simp
    · unfold contained rayCast
      rw [hcl]
      dsimp only
      simp only [h]
      split_ifs <;> simp_all
  · intro q hq
    rcases hq with hv | he
    · have hm : p ∈ (polyEdges q.points).map Prod.fst := by
        rw [map_fst_polyEdges]; exact hv
      unfold contained
      rw [crossLoop_eq_none_of_mem p _ hm 0 0]
    · rcases hcl : crossLoop p (polyEdges q.points) 0 0 with _ | ⟨lc, rc⟩
      · unfold contained
        rw [hcl]
      · unfold contained
        unfold rayCast at he
        rw [hcl] at he ⊢
        dsimp only at he ⊢
        split_ifs at he ⊢
        simp_all

/-- Witness for C1 at the contained-access square and the point (5, 5). -/
theorem contained_inversion_law_witness :
    cPolyW.type = POLY_CONTAINED_ACCESS ∧
    (((contained ⟨5, 5⟩ cPolyW = .Inside ↔ rayCast ⟨5, 5⟩ cPolyW.points = .Outside) ∧
      (contained ⟨5, 5⟩ cPolyW = .Outside ↔ rayCast ⟨5, 5⟩ cPolyW.points = .Inside)) ∧
     (∀ q : Polygon, (⟨5, 5⟩ : Point) ∈ q.points ∨ rayCast ⟨5, 5⟩ q.points = .OnEdge →
       contained ⟨5, 5⟩ q = .OnEdge)) :=
  ⟨rfl, contained_inversion_law cPolyW ⟨5, 5⟩ rfl⟩

/-- C5: find_free_point first tries the rounded point; if that is strictly
Inside it probes the four surrounding lattice points in the fixed order
(x, y), (x+1, y), (x+1, y+1), (x, y+1), returning the first probe not
Inside; it fails (PF_FATAL, None) exactly when the rounded point and all
four probes are Inside; and any returned point is not Inside. -/
theorem find_free_point_spec (f : FloatPoint) (poly : Polygon) :
    (contained ⟨⌊f.x + 1/2⌋, ⌊f.y + 1/2⌋⟩ poly ≠ .Inside →
      find_free_point f poly = some ⟨⌊f.x + 1/2⌋, ⌊f.y + 1/2⌋⟩) ∧
    (contained ⟨⌊f.x + 1/2⌋, ⌊f.y + 1/2⌋⟩ poly = .Inside →
      find_free_point f poly =
        [(⟨⌊f.x⌋, ⌊f.y⌋⟩ : Point), ⟨⌊f.x⌋ + 1, ⌊f.y⌋⟩, ⟨⌊f.x⌋ + 1, ⌊f.y⌋ + 1⟩,
          ⟨⌊f.x⌋, ⌊f.y⌋ + 1⟩].find? (fun q => decide (contained q poly ≠ .Inside))) ∧
    (find_free_point f poly = none ↔
      (contained ⟨⌊f.x + 1/2⌋, ⌊f.y + 1/2⌋⟩ poly = .Inside ∧
       ∀ q ∈ [(⟨⌊f.x⌋, ⌊f.y⌋⟩ : Point), ⟨⌊f.x⌋ + 1, ⌊f.y⌋⟩, ⟨⌊f.x⌋ + 1, ⌊f.y⌋ + 1⟩,
          ⟨⌊f.x⌋, ⌊f.y⌋ + 1⟩], contained q poly = .Inside)) ∧
    (∀ q : Point, find_free_point f poly = some q → contained q poly ≠ .Inside) := by
  by_cases h0 : contained ⟨⌊f.x + 1/2⌋, ⌊f.y + 1/2⌋⟩ poly = Cont.Inside <;>
  by_cases h1 : contained ⟨⌊f.x⌋, ⌊f.y⌋⟩ poly = Cont.Inside <;>
  by_cases h2 : contained ⟨⌊f.x⌋ + 1, ⌊f.y⌋⟩ poly = Cont.Inside <;>
  by_cases h3 : contained ⟨⌊f.x⌋ + 1, ⌊f.y⌋ + 1⟩ poly = Cont.Inside <;>
  by_cases h4 : contained ⟨⌊f.x⌋, ⌊f.y⌋ + 1⟩ poly = Cont.Inside <;>
  simp_all [find_free_point, List.find?]

/-- contained on a polygon that is not contained-access coincides with the
un-inverted ray-crossing classification. -/
lemma contained_eq_rayCast (p : Point) (q : Polygon)
    (h : q.type ≠ POLY_CONTAINED_ACCESS) :
    contained p q = rayCast p q.points := by
  unfold contained rayCast
  cases crossLoop p (polyEdges q.points) 0 0 with
  | none => rfl
  | some pr =>
    obtain ⟨lc, rc⟩ := pr
    dsimp only
    split_ifs <;> simp_all

/-- C9: the three-argument planner call overrides the converted polygon's
type to barred access before testing, so for every polygon, including one
declared contained-access, it answers true exactly when the un-inverted
ray-crossing test classifies the point as Inside or OnEdge. -/
theorem kAvoidPath3_uninverted (start : Point) (ty : Nat) (pts : List Point)
    (poly : Polygon) (hc : convert_polygon ty pts 0 = some poly) :
    kAvoidPath3 start ty pts =
      some (decide (rayCast start poly.points = .Inside ∨
        rayCast start poly.points = .OnEdge)) := by
  unfold kAvoidPath3
  rw [hc]
  dsimp only
  have hb : ({ poly with type := POLY_BARRED_ACCESS } : Polygon).type ≠
      POLY_CONTAINED_ACCESS := by
    simp [POLY_BARRED_ACCESS, POLY_CONTAINED_ACCESS]
  rw [contained_eq_rayCast _ _ hb]
  have hp : ({ poly with type := POLY_BARRED_ACCESS } : Polygon).points = poly.points := rfl
  rw [hp]
  cases hr : rayCast start poly.points <;> simp

/-- Witness for C9 at the contained-access square and the point (5, 5). -/
theorem kAvoidPath3_uninverted_witness :
    convert_polygon 3 ptsW 0 = some polyW ∧
    kAvoidPath3 ⟨5, 5⟩ 3 ptsW =
      some (decide (rayCast ⟨5, 5⟩ polyW.points = .Inside ∨
        rayCast ⟨5, 5⟩ polyW.points = .OnEdge)) :=
  ⟨by decide, kAvoidPath3_uninverted ⟨5, 5⟩ 3 ptsW polyW (by decide)⟩

/-- C4: when the end vertex has no predecessor after the search, the
output path is exactly three entries: the prepend point when recorded,
otherwise the (possibly relocated) start vertex's point; then the start
vertex's point; then the sentinel — a truncated path, not an error. -/
theorem output_path_unreachable (s : PFState) (st : Search) (fuel : Nat)
    (h : st.pathPrev s.endV.vid = none) :
    output_path s st fuel =
      some [s.prependPoint.getD s.startV.v, s.startV.v, sentinelPt] := by
  unfold output_path
  rw [h]

/-- Witness for C4: the truncated three-point fallback at a concrete state. -/
theorem output_path_unreachable_witness :
    output_path pfW searchW 5 = some [⟨1, 2⟩, ⟨1, 2⟩, sentinelPt] :=
  output_path_unreachable pfW searchW 5 rfl

/-- find? on a list with no match finds an element inserted anywhere in it. -/
lemma find?_insertIdx_of_none {α : Type} (pred : α → Bool) (w : α)
    (hw : pred w = true) : ∀ (n : Nat) (l : List α), List.find? pred l = none →
      n ≤ l.length → List.find? pred (l.insertIdx n w) = some w
  | 0, l, _, _ => by
    rw [List.insertIdx_zero, List.find?_cons_of_pos _ hw]
  | n + 1, [], _, hn => by simp at hn
  | n + 1, a :: t, hl, hn => by
    rw [List.insertIdx_succ_cons]
    rw [List.find?_cons_of_neg, find?_insertIdx_of_none pred w hw n t]
    · rw [List.find?_cons] at hl
      rcases hpa : pred a with _ | _ <;> rw [hpa] at hl
      · exact hl
      · exact absurd hl (by simp)
    · simpa using hn
    · intro hpa
      rw [List.find?_cons_of_pos _ hpa] at hl
      exact absurd hl (by simp)

/-- findEdgeIdx returns a position within the vertex list. -/
lemma findEdgeIdx_lt (vs : List Vertex) (p : Point) (k : Nat)
    (h : findEdgeIdx vs p = some k) : k < vs.length := by
  have hm := List.mem_of_find?_eq_some h
  exact List.mem_range.mp hm

/-- After a successful edge split of a point absent from every polygon, the
vertex scan finds exactly the inserted vertex. -/
lemma findVertexPolys_mergeSplit (p : Point) (w : Vertex) (hw : w.v = p) :
    ∀ polys polys2, findVertexPolys polys p = none →
      mergeSplit w polys = some polys2 →
      findVertexPolys polys2 p = some w
  | [], _, _, hs => by simp [mergeSplit] at hs
  | poly :: rest, polys2, hf, hs => by
    have hf1 : poly.vertices.find? (fun vx => vx.v == p) = none := by
      unfold findVertexPolys at hf
      rw [List.findSome?_cons] at hf
      rcases hx : poly.vertices.find? (fun vx => vx.v == p) with _ | vx
      · exact hx
      · rw [hx] at hf; exact absurd hf (by simp)
    have hf2 : findVertexPolys rest p = none := by
      unfold findVertexPolys at hf ⊢
      rw [List.findSome?_cons, hf1] at hf
      exact hf
    unfold mergeSplit at hs
    by_cases hlen : 2 ≤ poly.vertices.length
    · rw [if_pos hlen] at hs
      rcases he : findEdgeIdx poly.vertices w.v with _ | k <;> rw [he] at hs
      · rcases hrec : mergeSplit w rest with _ | rest2 <;> rw [hrec] at hs
        · exact absurd hs (by simp)
        · have hs2 : poly :: rest2 = polys2 := by simpa using hs
          subst hs2
          unfold findVertexPolys
          rw [List.findSome?_cons, hf1]
          exact findVertexPolys_mergeSplit p w hw rest rest2 hf2 hrec
      · have hs2 : (⟨poly.type, poly.vertices.insertIdx (k + 1) w⟩ : Polygon) :: rest = polys2 := by
          simpa using hs
        subst hs2
        unfold findVertexPolys
        rw [List.findSome?_cons]
        have : List.find? (fun vx => vx.v == p)
            (poly.vertices.insertIdx (k + 1) w) = some w := by
          apply find?_insertIdx_of_none _ _ (by simp [hw]) _ _ hf1
          have := findEdgeIdx_lt poly.vertices w.v k he
          omega
        rw [this]
    · rw [if_neg hlen] at hs
      rcases hrec : mergeSplit w rest with _ | rest2 <;> rw [hrec] at hs
      · exact absurd hs (by simp)
      · have hs2 : poly :: rest2 = polys2 := by simpa using hs
        subst hs2
        unfold findVertexPolys
        rw [List.findSome?_cons, hf1]
        exact findVertexPolys_mergeSplit p w hw rest rest2 hf2 hrec

/-- C3: merge_point is idempotent: merging the same point a second time
returns the same vertex (the same allocation counter: no new vertex is
created) and leaves the polygon list, and so every polygon's cyclic vertex
sequence, exactly as the first merge left them. -/
theorem merge_point_idempotent (polys : List Polygon) (nid : Nat) (p : Point) :
    merge_point (merge_point polys nid p).1 (merge_point polys nid p).2.1 p =
      merge_point polys nid p := by
  rcases hf : findVertexPolys polys p with _ | vx
  · rcases hs : mergeSplit ⟨nid, p⟩ polys with _ | polys2
    · have h1 : merge_point polys nid p =
          (⟨POLY_BARRED_ACCESS, [⟨nid, p⟩]⟩ :: polys, nid + 1, ⟨nid, p⟩) := by
        unfold merge_point
        rw [hf]
        dsimp only
        rw [hs]
      rw [h1]
      unfold merge_point
      have : findVertexPolys (⟨POLY_BARRED_ACCESS, [⟨nid, p⟩]⟩ :: polys) p =
          some ⟨nid, p⟩ := by
        unfold findVertexPolys
        rw [List.findSome?_cons]
        simp
      rw [this]
    · have h1 : merge_point polys nid p = (polys2, nid + 1, ⟨nid, p⟩) := by
        unfold merge_point
        rw [hf]
        dsimp only
        rw [hs]
      rw [h1]
      unfold merge_point
      rw [findVertexPolys_mergeSplit p ⟨nid, p⟩ rfl polys polys2 hf hs]
  · have h1 : merge_point polys nid p = (polys, nid, vx) := by
      unfold merge_point
      rw [hf]
    rw [h1]
    unfold merge_point
    rw [hf]

/-- C6: during end-point fixup, a polygon of barred, nearest or contained
access type that contains the end point (containment not Outside) causes
the end to be relocated through findNearPoint (fatal failure propagating),
and the original end is recorded as the append point if and only if the
polygon's type is nearest access. -/
theorem fixup_end_relocates (w h : Int) (e : Point) (poly : Polygon)
    (rest : List Polygon) (newEnd : Point)
    (hty : poly.type = POLY_BARRED_ACCESS ∨ poly.type = POLY_NEAREST_ACCESS ∨
      poly.type = POLY_CONTAINED_ACCESS)
    (hcont : contained e poly ≠ .Outside) :
    fixup_end_go w h e (poly :: rest) newEnd none =
      (match findNearPoint w h e poly with
       | none => .fatal
       | some ne' => consFix poly (fixup_end_go w h e rest ne'
           (if poly.type = POLY_NEAREST_ACCESS then some e else none))) := by
  have ht : ¬ poly.type = POLY_TOTAL_ACCESS := by
    rcases hty with h1 | h1 | h1 <;> rw [h1] <;> decide
  have hty2 : poly.type = POLY_CONTAINED_ACCESS ∨ poly.type = POLY_BARRED_ACCESS ∨
      poly.type = POLY_NEAREST_ACCESS := by tauto
  simp only [fixup_end_go, if_neg ht, if_pos hty2, if_pos hcont]
  simp

/-- Witness for C6 at the nearest-access square with end point (5, 5). -/
theorem fixup_end_relocates_witness :
    (nPolyW.type = POLY_BARRED_ACCESS ∨ nPolyW.type = POLY_NEAREST_ACCESS ∨
      nPolyW.type = POLY_CONTAINED_ACCESS) ∧
    contained ⟨5, 5⟩ nPolyW ≠ .Outside ∧
    fixup_end_go 320 190 ⟨5, 5⟩ [nPolyW] ⟨5, 5⟩ none =
      (match findNearPoint 320 190 ⟨5, 5⟩ nPolyW with
       | none => .fatal
       | some ne' => consFix nPolyW (fixup_end_go 320 190 ⟨5, 5⟩ [] ne'
           (if nPolyW.type = POLY_NEAREST_ACCESS then some ⟨5, 5⟩ else none))) :=
  ⟨by decide, by decide,
    fixup_end_relocates 320 190 ⟨5, 5⟩ nPolyW [] ⟨5, 5⟩ (by decide) (by decide)⟩

/-- area is antisymmetric in its first two arguments. -/
lemma area_swap (a b c : Point) : area b a c = -(area a b c) := by
  unfold area
  ring

/-- between characterised as a proposition. -/
lemma between_iff (a b c : Point) :
    between a b c = true ↔
      (area a b c = 0 ∧
        ((¬ a.x = b.x ∧ ((a.x ≤ c.x ∧ c.x ≤ b.x) ∨ (a.x ≥ c.x ∧ c.x ≥ b.x))) ∨
         (a.x = b.x ∧ ((a.y ≤ c.y ∧ c.y ≤ b.y) ∨ (a.y ≥ c.y ∧ c.y ≥ b.y))))) := by
  unfold between collinear
  split_ifs with h1 h2 <;> simp_all

/-- between is symmetric in the segment's endpoints. -/
lemma between_symm (a b c : Point) : between a b c = between b a c := by
  rw [Bool.eq_iff_iff, between_iff, between_iff, area_swap]
  omega

/-- left characterised as a proposition. -/
lemma left_iff (a b c : Point) : left a b c = true ↔ 0 < area a b c := by
  unfold left
  simp

/-- intersect_proper is symmetric in the first segment's endpoints. -/
lemma intersect_proper_symm (a b c d : Point) :
    intersect_proper a b c d = intersect_proper b a c d := by
  unfold intersect_proper
  rw [Bool.eq_iff_iff]
  simp only [Bool.and_eq_true, Bool.or_eq_true]
  tauto

/-- edgeBlocks is symmetric in the sight segment's endpoints. -/
lemma edgeBlocks_symm (polys : List Polygon) (a b : Point) (e : Vertex) :
    edgeBlocks polys a b e = edgeBlocks polys b a e := by
  unfold edgeBlocks
  cases locate polys e.vid with
  | none => rfl
  | some pk =>
    obtain ⟨poly, k⟩ := pk
    dsimp only
    rw [between_symm a b e.v, intersect_proper_symm, Bool.or_comm]

/-- Membership in the visibility fold: an element is collected exactly when
it is in the walked list and passes every exclusion test (or was already in
the accumulator). -/
lemma mem_visible_fold (s : PFState) (cur : Vertex) :
    ∀ (l : List Vertex) (acc : List Vertex) (x : Vertex),
      (x ∈ l.foldl (fun acc vx =>
        if vx.vid == cur.vid then acc
        else if insideV s.polygons vx.v cur then acc
        else if insideV s.polygons cur.v vx then acc
        else if (vertexIndex s.polygons).all
            (fun e => !edgeBlocks s.polygons cur.v vx.v e) then vx :: acc
        else acc) acc ↔
      x ∈ acc ∨ (x ∈ l ∧ ¬ x.vid = cur.vid ∧
        insideV s.polygons x.v cur = false ∧ insideV s.polygons cur.v x = false ∧
        (vertexIndex s.polygons).all
          (fun e => !edgeBlocks s.polygons cur.v x.v e) = true))
  | [], acc, x => by simp
  | vx :: l, acc, x => by
    rw [List.foldl_cons]
    by_cases h1 : vx.vid == cur.vid
    · rw [if_pos h1, mem_visible_fold s cur l acc x]
      constructor
      · rintro (ha | hb)
        · exact Or.inl ha
        · exact Or.inr ⟨List.mem_cons_of_mem _ hb.1, hb.2⟩
      · rintro (ha | ⟨hm, hb⟩)
        · exact Or.inl ha
        · rcases List.mem_cons.mp hm with he | hm2
          · subst he
            exact absurd (by simpa using h1) hb.1
          · exact Or.inr ⟨hm2, hb⟩
    · rw [if_neg h1]
      by_cases h2 : insideV s.polygons vx.v cur
      · rw [if_pos h2, mem_visible_fold s cur l acc x]
        constructor
        · rintro (ha | hb)
          · exact Or.inl ha
          · exact Or.inr ⟨List.mem_cons_of_mem _ hb.1, hb.2⟩
        · rintro (ha | ⟨hm, hb⟩)
          · exact Or.inl ha
          · rcases List.mem_cons.mp hm with he | hm2
            · subst he
              rw [h2] at hb
              exact absurd hb.2.1 (by simp)
            · exact Or.inr ⟨hm2, hb⟩
      · rw [if_neg h2]
        by_cases h3 : insideV s.polygons cur.v vx
        · rw [if_pos h3, mem_visible_fold s cur l acc x]
          constructor
          · rintro (ha | hb)
            · exact Or.inl ha
            · exact Or.inr ⟨List.mem_cons_of_mem _ hb.1, hb.2⟩
          · rintro (ha | ⟨hm, hb⟩)
            · exact Or.inl ha
            · rcases List.mem_cons.mp hm with he | hm2
              · subst he
                rw [h3] at hb
                exact absurd hb.2.2.1 (by simp)
              · exact Or.inr ⟨hm2, hb⟩
        · rw [if_neg h3]
          by_cases h4 : (vertexIndex s.polygons).all
              (fun e => !edgeBlocks s.polygons cur.v vx.v e)
          · rw [if_pos h4, mem_visible_fold s cur l (vx :: acc) x]
            constructor
            · rintro (ha | hb)
              · rcases List.mem_cons.mp ha with he | ha2
                · subst he
                  refine Or.inr ⟨List.mem_cons_self _ _, by simpa using h1, ?_, ?_, h4⟩
                  · exact Bool.eq_false_iff.mpr (by simpa using h2)
                  · exact Bool.eq_false_iff.mpr (by simpa using h3)
                · exact Or.inl ha2
              · exact Or.inr ⟨List.mem_cons_of_mem _ hb.1, hb.2⟩
            · rintro (ha | ⟨hm, hb⟩)
              · exact Or.inl (List.mem_cons_of_mem _ ha)
              · rcases List.mem_cons.mp hm with he | hm2
                · subst he
                  exact Or.inl (List.mem_cons_self _ _)
                · exact Or.inr ⟨hm2, hb⟩
          · rw [if_neg h4, mem_visible_fold s cur l acc x]
            constructor
            · rintro (ha | hb)
              · exact Or.inl ha
              · exact Or.inr ⟨List.mem_cons_of_mem _ hb.1, hb.2⟩
            · rintro (ha | ⟨hm, hb⟩)
              · exact Or.inl ha
              · rcases List.mem_cons.mp hm with he | hm2
                · subst he
                  exact absurd hb.2.2.2 h4
                · exact Or.inr ⟨hm2, hb⟩

/-- Membership in visible_vertices, characterised. -/
lemma mem_visible_vertices (s : PFState) (cur x : Vertex) :
    x ∈ visible_vertices s cur ↔
      x ∈ vertexIndex s.polygons ∧ ¬ x.vid = cur.vid ∧
      insideV s.polygons x.v cur = false ∧ insideV s.polygons cur.v x = false ∧
      (vertexIndex s.polygons).all
        (fun e => !edgeBlocks s.polygons cur.v x.v e) = true := by
  unfold visible_vertices
  rw [mem_visible_fold]
  simp

/-- C10: the visibility relation is symmetric: for two distinct vertices of
the vertex index, each is visible from the other or neither is, because
every exclusion test of visible_vertices is invariant under swapping the
sight segment's endpoints. -/
theorem visible_vertices_symmetric (s : PFState) (u v : Vertex)
    (hu : u ∈ vertexIndex s.polygons) (hv : v ∈ vertexIndex s.polygons)
    (hne : u.vid ≠ v.vid) :
    (u ∈ visible_vertices s v ↔ v ∈ visible_vertices s u) := by
  rw [mem_visible_vertices, mem_visible_vertices]
  constructor
  · rintro ⟨_, hq1, hq2, hq3, hq4⟩
    refine ⟨hv, fun hh => hne hh.symm, hq3, hq2, ?_⟩
    rw [List.all_eq_true] at hq4 ⊢
    intro e he
    rw [← edgeBlocks_symm]
    exact hq4 e he
  · rintro ⟨_, hq1, hq2, hq3, hq4⟩
    refine ⟨hu, fun hh => hne hh, hq3, hq2, ?_⟩
    rw [List.all_eq_true] at hq4 ⊢
    intro e he
    rw [← edgeBlocks_symm]
    exact hq4 e he

/-- Witness for C10 at the two-point state. -/
theorem visible_vertices_symmetric_witness :
    (⟨0, ⟨1, 1⟩⟩ : Vertex) ∈ vertexIndex pfW2.polygons ∧
    (⟨1, ⟨2, 2⟩⟩ : Vertex) ∈ vertexIndex pfW2.polygons ∧
    (0 : Nat) ≠ 1 ∧
    ((⟨0, ⟨1, 1⟩⟩ : Vertex) ∈ visible_vertices pfW2 ⟨1, ⟨2, 2⟩⟩ ↔
     (⟨1, ⟨2, 2⟩⟩ : Vertex) ∈ visible_vertices pfW2 ⟨0, ⟨1, 1⟩⟩) :=
  ⟨by decide, by decide, by decide,
    visible_vertices_symmetric pfW2 ⟨0, ⟨1, 1⟩⟩ ⟨1, ⟨2, 2⟩⟩ (by decide) (by decide)
      (by decide)⟩

/-- selectMin's fold only produces the accumulator's candidate or a member
of the scanned list. -/
lemma selectMin_aux (f : Nat → Nat) (m : Vertex) :
    ∀ (l : List Vertex) (acc : Option Vertex × Nat),
      (l.foldl (fun acc vx => if f vx.vid < acc.2 then (some vx, f vx.vid) else acc)
        acc).1 = some m → acc.1 = some m ∨ m ∈ l
  | [], _, h => Or.inl h
  | vx :: l, acc, h => by
    rw [List.foldl_cons] at h
    rcases selectMin_aux f m l _ h with h1 | h1
    · by_cases hc : f vx.vid < acc.2
      · rw [if_pos hc] at h1
        dsimp only at h1
        rw [Option.some_inj] at h1
        subst h1
        exact Or.inr (List.mem_cons_self _ _)
      · rw [if_neg hc] at h1
        exact Or.inl h1
    · exact Or.inr (List.mem_cons_of_mem _ h1)

/-- selectMin returns a member of the open list. -/
lemma selectMin_mem (f : Nat → Nat) (l : List Vertex) (m : Vertex)
    (h : selectMin f l = some m) : m ∈ l := by
  rcases selectMin_aux f m l ((none : Option Vertex), HUGE_DISTANCE) h with h1 | h1
  · exact absurd h1 (by simp)
  · exact h1

/-- A duplicate-free closed list drawn from the vertex index is no longer
than the index. -/
lemma closed_le_index (s : PFState) (st : Search)
    (hnd : (st.closedS.map Vertex.vid).Nodup)
    (hsub : ∀ u ∈ st.closedS, u ∈ vertexIndex s.polygons) :
    st.closedS.length ≤ (vertexIndex s.polygons).length := by
  have h1 : st.closedS.length = (st.closedS.map Vertex.vid).length := by simp
  rw [h1, ← List.toFinset_card_of_nodup hnd]
  calc (st.closedS.map Vertex.vid).toFinset.card
      ≤ ((vertexIndex s.polygons).map Vertex.vid).toFinset.card := by
        apply Finset.card_le_card
        intro x hx
        rw [List.mem_toFinset] at hx ⊢
        rw [List.mem_map] at hx ⊢
        obtain ⟨u, hu, hux⟩ := hx
        exact ⟨u, hsub u hu, hux⟩
    _ ≤ ((vertexIndex s.polygons).map Vertex.vid).length := List.toFinset_card_le _
    _ = (vertexIndex s.polygons).length := by simp

/-- Erasing the (unique, by Nodup of identities) occurrence of m's identity
leaves only vertices of other identities. -/
lemma mem_eraseP_vid : ∀ (l : List Vertex) (m w : Vertex),
    (l.map Vertex.vid).Nodup → m ∈ l →
    w ∈ l.eraseP (fun u => u.vid == m.vid) → w.vid ≠ m.vid
  | [], m, w, _, hm, _ => absurd hm (by simp)
  | a :: t, m, w, hnd, hm, hw => by
    simp only [List.map_cons, List.nodup_cons] at hnd
    by_cases hp : (a.vid == m.vid) = true
    · rw [List.eraseP_cons_of_pos (p := fun u : Vertex => u.vid == m.vid) hp] at hw
      have ham : a.vid = m.vid := by simpa using hp
      intro hwm
      apply hnd.1
      rw [ham, ← hwm]
      exact List.mem_map_of_mem Vertex.vid hw
    · rw [List.eraseP_cons_of_neg (p := fun u : Vertex => u.vid == m.vid) hp] at hw
      have hma : m ∈ t := by
        rcases List.mem_cons.mp hm with he | ht
        · subst he
          exact absurd (by simp) hp
        · exact ht
      rcases List.mem_cons.mp hw with he | ht2
      · subst he
        intro hwm
        apply hnd.1
        rw [hwm]
        exact List.mem_map_of_mem Vertex.vid hma
      · exact mem_eraseP_vid t m w hnd.2 hma ht2

/-- relaxNew leaves the open set unchanged. -/
lemma relaxNew_openS (s : PFState) (m vx : Vertex) (st1 : Search) :
    (relaxNew s m vx st1).openS = st1.openS := by
  unfold relaxNew
  split_ifs <;> rfl

/-- relaxNew leaves the closed set unchanged. -/
lemma relaxNew_closedS (s : PFState) (m vx : Vertex) (st1 : Search) :
    (relaxNew s m vx st1).closedS = st1.closedS := by
  unfold relaxNew
  split_ifs <;> rfl

/-- SInv only depends on the open and closed sets. -/
lemma SInv_of_eq (s : PFState) {st st' : Search} (ho : st'.openS = st.openS)
    (hc : st'.closedS = st.closedS) (h : SInv s st) : SInv s st' := by
  unfold SInv at h ⊢
  rw [ho, hc]
  exact h

/-- relaxStep preserves SInv and never touches the closed set. -/
lemma relaxStep_SInv (s : PFState) (avoid : Bool) (m : Vertex) (st : Search)
    (vx : Vertex) (hvx : vx ∈ vertexIndex s.polygons) (hinv : SInv s st) :
    SInv s (relaxStep s avoid m st vx) ∧
    (relaxStep s avoid m st vx).closedS = st.closedS := by
  unfold relaxStep
  split_ifs with c1 c2 c3
  · exact ⟨hinv, rfl⟩
  · exact ⟨hinv, rfl⟩
  · exact ⟨SInv_of_eq s (relaxNew_openS s m vx st) (relaxNew_closedS s m vx st) hinv,
      relaxNew_closedS s m vx st⟩
  · obtain ⟨hA, hB, hC, hD, hE⟩ := hinv
    have hpush : SInv s { st with openS := vx :: st.openS } := by
      refine ⟨?_, ?_, hC, hD, ?_⟩
      · intro w hw
        rcases List.mem_cons.mp hw with he | hw2
        · subst he; exact hvx
        · exact hA w hw2
      · intro w hw u hu
        rcases List.mem_cons.mp hw with he | hw2
        · subst he
          intro hwu
          apply c1.elim
          rw [List.any_eq_true]
          exact ⟨u, hu, by simpa using hwu.symm⟩
        · exact hB w hw2 u hu
      · rw [List.map_cons, List.nodup_cons]
        refine ⟨?_, hE⟩
        intro hmem
        apply c3.elim
        rw [List.any_eq_true]
        rw [List.mem_map] at hmem
        obtain ⟨u, hu, hux⟩ := hmem
        exact ⟨u, hu, by simpa using hux⟩
    exact ⟨SInv_of_eq s (relaxNew_openS s m vx _) (relaxNew_closedS s m vx _) hpush,
      relaxNew_closedS s m vx _⟩

/-- Folding relaxStep over vertices of the index preserves SInv and the
closed set. -/
lemma foldl_relax_SInv (s : PFState) (avoid : Bool) (m : Vertex) :
    ∀ (l : List Vertex) (st : Search),
      (∀ vx ∈ l, vx ∈ vertexIndex s.polygons) → SInv s st →
      SInv s (l.foldl (relaxStep s avoid m) st) ∧
      (l.foldl (relaxStep s avoid m) st).closedS = st.closedS
  | [], st, _, hinv => ⟨hinv, rfl⟩
  | vx :: l, st, hl, hinv => by
    rw [List.foldl_cons]
    obtain ⟨h1, h2⟩ := relaxStep_SInv s avoid m st vx (hl vx (List.mem_cons_self _ _)) hinv
    obtain ⟨h3, h4⟩ := foldl_relax_SInv s avoid m l _
      (fun u hu => hl u (List.mem_cons_of_mem _ hu)) h1
    exact ⟨h3, h4.trans h2⟩

/-- An expansion preserves SInv and moves exactly the selected vertex from
the open to the closed set. -/
lemma astarBody_SInv (s : PFState) (avoid : Bool) (st : Search) (m : Vertex)
    (hm : m ∈ st.openS) (hinv : SInv s st) :
    SInv s (astarBody s avoid st m) ∧
    (astarBody s avoid st m).closedS = m :: st.closedS := by
  obtain ⟨hA, hB, hC, hD, hE⟩ := hinv
  have hstep : SInv s { st with closedS := m :: st.closedS, openS := st.openS.eraseP (fun u => u.vid == m.vid) } := by
    refine ⟨?_, ?_, ?_, ?_, ?_⟩
    · intro w hw
      exact hA w (List.Sublist.mem hw (List.eraseP_sublist _))
    · intro w hw u hu
      have hwo : w ∈ st.openS := List.Sublist.mem hw (List.eraseP_sublist _)
      rcases List.mem_cons.mp hu with he | hu2
      · subst he
        exact mem_eraseP_vid st.openS u w hE hm hw
      · exact hB w hwo u hu2
    · rw [List.map_cons, List.nodup_cons]
      refine ⟨?_, hC⟩
      intro hmem
      rw [List.mem_map] at hmem
      obtain ⟨u, hu, hux⟩ := hmem
      exact hB m hm u hu hux.symm
    · intro u hu
      rcases List.mem_cons.mp hu with he | hu2
      · rw [he]; exact hA m hm
      · exact hD u hu2
    · exact hE.sublist (List.Sublist.map _ (List.eraseP_sublist _))
  have hvis : ∀ vx ∈ visible_vertices s m, vx ∈ vertexIndex s.polygons :=
    fun vx hv => ((mem_visible_vertices s m vx).mp hv).1
  obtain ⟨h1, h2⟩ := foldl_relax_SInv s avoid m (visible_vertices s m) _ hvis hstep
  exact ⟨h1, h2⟩

/-- The A* loop reaches one of its own exits once the fuel covers the
vertices not yet closed. -/
lemma astarLoop_term (s : PFState) (avoid : Bool) :
    ∀ (fuel : Nat) (st : Search), SInv s st →
      (vertexIndex s.polygons).length + 1 ≤ fuel + st.closedS.length →
      (astarLoop s avoid fuel st).2 = true
  | 0, st, hinv, hb => by
    exfalso
    have := closed_le_index s st hinv.2.2.1 hinv.2.2.2.1
    omega
  | fuel + 1, st, hinv, hb => by
    show (if st.openS.isEmpty then (st, true)
      else match selectMin st.costF st.openS with
        | none => (st, true)
        | some m =>
          if m.vid == s.endV.vid then (st, true)
          else astarLoop s avoid fuel (astarBody s avoid st m)).2 = true
    by_cases he : st.openS.isEmpty
    · rw [if_pos he]
    · rw [if_neg he]
      rcases hsel : selectMin st.costF st.openS with _ | m
      · rfl
      · dsimp only
        by_cases hend : (m.vid == s.endV.vid) = true
        · rw [if_pos hend]
        · rw [if_neg hend]
          obtain ⟨h1, h2⟩ := astarBody_SInv s avoid st m
            (selectMin_mem _ _ _ hsel) hinv
          apply astarLoop_term s avoid fuel _ h1
          rw [h2]
          simp only [List.length_cons]
          omega

/-- C8: A* terminates on every finite pathfinding state whose start vertex
was merged into the vertex index: each iteration either ends the search or
moves exactly one index vertex from the open to the closed set and closed
vertices are never re-opened, so a fuel of one more than the total vertex
count always reaches the loop's own exit. -/
theorem astar_terminates (s : PFState) (avoid : Bool)
    (hstart : s.startV ∈ vertexIndex s.polygons) :
    (AStar s avoid ((vertexIndex s.polygons).length + 1)).2 = true := by
  apply astarLoop_term
  · refine ⟨?_, ?_, ?_, ?_, ?_⟩
    · intro w hw
      rw [List.mem_singleton] at hw
      subst hw
      exact hstart
    · intro w _ u hu
      exact absurd hu (List.not_mem_nil u)
    · exact List.nodup_nil
    · intro u hu
      exact absurd hu (List.not_mem_nil u)
    · simp
  · simp

/-- Witness for C8: the two-point state terminates with fuel 3. -/
theorem astar_terminates_witness :
    pfW2.startV ∈ vertexIndex pfW2.polygons ∧
    (AStar pfW2 true ((vertexIndex pfW2.polygons).length + 1)).2 = true :=
  ⟨by decide, astar_terminates pfW2 true (by decide)⟩

/-- A predecessor recorded by relaxNew is an old one or the selected m. -/
lemma relaxNew_pathPrev (s : PFState) (m vx : Vertex) (st1 : Search) (i : Nat)
    (u : Vertex) (h : (relaxNew s m vx st1).pathPrev i = some u) :
    st1.pathPrev i = some u ∨ u = m := by
  unfold relaxNew at h
  split_ifs at h
  · dsimp only at h
    by_cases hi : i = vx.vid
    · rw [if_pos hi] at h
      rw [Option.some_inj] at h
      exact Or.inr h.symm
    · rw [if_neg hi] at h
      exact Or.inl h
  · exact Or.inl h

/-- relaxStep preserves the border invariant when the selected vertex is
the start or off the border. -/
lemma relaxStep_BInv (s : PFState) (m : Vertex) (st : Search) (vx : Vertex)
    (hmP : m.vid = s.startV.vid ∨ pointOnScreenBorder s.width s.height m.v = false)
    (hinv : BInv s st) : BInv s (relaxStep s true m st vx) := by
  obtain ⟨hO, hP⟩ := hinv
  unfold relaxStep
  split_ifs with c1 c2 c3
  · exact ⟨hO, hP⟩
  · exact ⟨hO, hP⟩
  · constructor
    · intro w hw
      rw [relaxNew_openS] at hw
      exact hO w hw
    · intro i u hu
      rcases relaxNew_pathPrev s m vx st i u hu with h1 | h1
      · exact hP i u h1
      · rw [h1]
        exact hmP
  · have hvx : vx.vid = s.endV.vid ∨
        pointOnScreenBorder s.width s.height vx.v = false := by
      by_cases hb : pointOnScreenBorder s.width s.height vx.v = true
      · left
        by_contra hne
        apply c2
        simp only [Bool.true_and, Bool.and_eq_true, Bool.not_eq_true']
        refine ⟨?_, hb⟩
        simp only [beq_eq_false_iff_ne, ne_eq]
        exact hne
      · right
        exact Bool.not_eq_true _ ▸ Bool.eq_false_iff.mpr hb
    constructor
    · intro w hw
      rw [relaxNew_openS] at hw
      rcases List.mem_cons.mp hw with he | hw2
      · rw [he]
        exact hvx.elim (fun hh => Or.inr (Or.inl hh)) (fun hh => Or.inr (Or.inr hh))
      · exact hO w hw2
    · intro i u hu
      rcases relaxNew_pathPrev s m vx _ i u hu with h1 | h1
      · exact hP i u h1
      · rw [h1]
        exact hmP

/-- Folding relaxStep preserves the border invariant. -/
lemma foldl_relax_BInv (s : PFState) (m : Vertex)
    (hmP : m.vid = s.startV.vid ∨ pointOnScreenBorder s.width s.height m.v = false) :
    ∀ (l : List Vertex) (st : Search), BInv s st →
      BInv s (l.foldl (relaxStep s true m) st)
  | [], _, hinv => hinv
  | vx :: l, st, hinv => by
    rw [List.foldl_cons]
    exact foldl_relax_BInv s m hmP l _ (relaxStep_BInv s m st vx hmP hinv)

/-- An expansion with a selected vertex other than the end preserves the
border invariant. -/
lemma astarBody_BInv (s : PFState) (st : Search) (m : Vertex)
    (hm : m ∈ st.openS) (hne : m.vid ≠ s.endV.vid) (hinv : BInv s st) :
    BInv s (astarBody s true st m) := by
  have hmP : m.vid = s.startV.vid ∨
      pointOnScreenBorder s.width s.height m.v = false := by
    rcases hinv.1 m hm with h1 | h1 | h1
    · exact Or.inl h1
    · exact absurd h1 hne
    · exact Or.inr h1
  have hstep : BInv s { st with closedS := m :: st.closedS, openS := st.openS.eraseP (fun u => u.vid == m.vid) } := by
    refine ⟨?_, hinv.2⟩
    intro w hw
    exact hinv.1 w (List.Sublist.mem hw (List.eraseP_sublist _))
  exact foldl_relax_BInv s m hmP (visible_vertices s m) _ hstep

/-- The A* loop preserves the border invariant. -/
lemma astarLoop_BInv (s : PFState) :
    ∀ (fuel : Nat) (st : Search), BInv s st →
      BInv s (astarLoop s true fuel st).1
  | 0, _, hinv => hinv
  | fuel + 1, st, hinv => by
    show BInv s (if st.openS.isEmpty then (st, true)
      else match selectMin st.costF st.openS with
        | none => (st, true)
        | some m =>
          if m.vid == s.endV.vid then (st, true)
          else astarLoop s true fuel (astarBody s true st m)).1
    by_cases he : st.openS.isEmpty
    · rw [if_pos he]
      exact hinv
    · rw [if_neg he]
      rcases hsel : selectMin st.costF st.openS with _ | m
      · exact hinv
      · dsimp only
        by_cases hend : (m.vid == s.endV.vid) = true
        · rw [if_pos hend]
          exact hinv
        · rw [if_neg hend]
          exact astarLoop_BInv s fuel _
            (astarBody_BInv s st m (selectMin_mem _ _ _ hsel) (by simpa using hend) hinv)

/-- Every vertex of a predecessor chain is its head or a recorded
predecessor value. -/
lemma predChain_mem (pr : Nat → Option Vertex) :
    ∀ (fuel : Nat) (v : Vertex) (ch : List Vertex),
      predChain pr fuel v = some ch →
      ∀ u ∈ ch, u = v ∨ ∃ i, pr i = some u
  | 0, v, ch, h => by simp [predChain] at h
  | fuel + 1, v, ch, h => by
    unfold predChain at h
    rcases hp : pr v.vid with _ | u2 <;> rw [hp] at h <;> dsimp only at h
    · have hc : ch = [v] := by simpa using h.symm
      subst hc
      intro u hu
      rw [List.mem_singleton] at hu
      exact Or.inl hu
    · rcases hq : predChain pr fuel u2 with _ | ch2 <;> rw [hq] at h
      · exact absurd h (by simp)
      · have hc : ch = v :: ch2 := by simpa using h.symm
        subst hc
        intro u hu
        rcases List.mem_cons.mp hu with he | hu2
        · exact Or.inl he
        · rcases predChain_mem pr fuel u2 ch2 hq u hu2 with he2 | hex
          · rw [he2]
            exact Or.inr ⟨v.vid, hp⟩
          · exact Or.inr hex

/-- C7: with avoidScreenEdge set, a screen-border vertex other than the end
is never added to the open set, and consequently every vertex of the
returned predecessor chain other than the start and end vertices lies
strictly off the screen border. -/
theorem astar_path_off_border (s : PFState) (fuel fuel2 : Nat) (ch : List Vertex)
    (hch : predChain (AStar s true fuel).1.pathPrev fuel2 s.endV = some ch) :
    (∀ w ∈ (AStar s true fuel).1.openS, w.vid = s.startV.vid ∨
      w.vid = s.endV.vid ∨ pointOnScreenBorder s.width s.height w.v = false) ∧
    (∀ u ∈ ch, u = s.endV ∨ u.vid = s.startV.vid ∨
      pointOnScreenBorder s.width s.height u.v = false) := by
  have hB : BInv s (AStar s true fuel).1 := by
    apply astarLoop_BInv
    constructor
    · intro w hw
      rw [List.mem_singleton] at hw
      rw [hw]
      exact Or.inl rfl
    · intro i u hu
      exact absurd hu (by simp)
  refine ⟨hB.1, ?_⟩
  intro u hu
  rcases predChain_mem _ fuel2 s.endV ch hch u hu with he | ⟨i, hi⟩
  · exact Or.inl he
  · rcases hB.2 i u hi with h1 | h1
    · exact Or.inr (Or.inl h1)
    · exact Or.inr (Or.inr h1)

/-- Witness for C7: the two-point state's chain obeys the border rule. -/
theorem astar_path_off_border_witness :
    predChain (AStar pfW2 true 3).1.pathPrev 3 pfW2.endV =
      some [⟨1, ⟨2, 2⟩⟩, ⟨0, ⟨1, 1⟩⟩] ∧
    ((∀ w ∈ (AStar pfW2 true 3).1.openS, w.vid = pfW2.startV.vid ∨
      w.vid = pfW2.endV.vid ∨
      pointOnScreenBorder pfW2.width pfW2.height w.v = false) ∧
    (∀ u ∈ [(⟨1, ⟨2, 2⟩⟩ : Vertex), ⟨0, ⟨1, 1⟩⟩], u = pfW2.endV ∨
      u.vid = pfW2.startV.vid ∨
      pointOnScreenBorder pfW2.width pfW2.height u.v = false)) :=
  ⟨by rfl, astar_path_off_border pfW2 3 3 [⟨1, ⟨2, 2⟩⟩, ⟨0, ⟨1, 1⟩⟩] (by rfl)⟩

/-- pdist of a point to itself is zero. -/
lemma pdist_self (p : Point) : pdist p p = 0 := by
  have h0 : sqrDistP p p = 0 := by
    simp [sqrDistP]
  rw [pdist, h0]
  rfl

/-- pdist of two int16-range points is far below HUGE_DISTANCE. -/
lemma pdist_lt_huge (a b : Point) (ha : int16Range a) (hb : int16Range b) :
    pdist a b < HUGE_DISTANCE := by
  obtain ⟨ha1, ha2, ha3, ha4⟩ := ha
  obtain ⟨hb1, hb2, hb3, hb4⟩ := hb
  have hS : sqrDistP a b ≤ 2 ^ 33 := by
    unfold sqrDistP
    rw [Int.toNat_le]
    push_cast
    nlinarith
  have hk := isqrtAux_sq_le (sqrDistP a b) (sqrDistP a b)
  show isqrtAux (sqrDistP a b) (sqrDistP a b) < HUGE_DISTANCE
  by_contra hge
  push_neg at hge
  rw [HUGE_DISTANCE] at hge
  have := Nat.mul_le_mul hge hge
  omega

/-- C2: on a scene with no polygons, for distinct int16-range start and end
points and optimisation level 1 or 2, the planning call returns exactly the
path start, end, sentinel. -/
theorem avoidPath_empty_scene (start endP : Point) (w h : Int) (opt : Nat)
    (hne : start ≠ endP) (hopt : opt = 1 ∨ opt = 2)
    (hs : int16Range start) (he : int16Range endP) :
    avoidPath [] start endP w h opt = some [start, endP, sentinelPt] := by
  have hlt : pdist start endP < HUGE_DISTANCE := pdist_lt_huge _ _ hs he
  have hopt0 : ¬ opt = 0 := by omega
  have hfind : findVertexPolys [⟨POLY_BARRED_ACCESS, [⟨0, start⟩]⟩] endP = none := by
    unfold findVertexPolys
    rw [List.findSome?_cons]
    have hf1 : List.find? (fun vx => vx.v == endP) [(⟨0, start⟩ : Vertex)] = none := by
      rw [List.find?_cons_of_neg]
      · rfl
      · simp only [beq_eq_false_iff_ne, ne_eq, Bool.not_eq_true]
        simp [hne]
    rw [hf1]
    rfl
  have hm2 : merge_point [⟨POLY_BARRED_ACCESS, [⟨0, start⟩]⟩] 1 endP =
      ([⟨POLY_BARRED_ACCESS, [⟨1, endP⟩]⟩, ⟨POLY_BARRED_ACCESS, [⟨0, start⟩]⟩],
        2, ⟨1, endP⟩) := by
    unfold merge_point
    rw [hfind]
    rfl
  have hmod : (0 + pdist start endP) % 2 ^ 32 = pdist start endP := by
    rw [Nat.zero_add, Nat.mod_eq_of_lt]
    unfold HUGE_DISTANCE at hlt
    omega
  have hcps : convert_polygon_set [] start endP w h opt =
      ConvRes.ok (twoPointState start endP w h) 2 := by
    unfold convert_polygon_set
    rw [if_neg hopt0]
    show ConvRes.ok { polygons := (merge_point [⟨POLY_BARRED_ACCESS, [⟨0, start⟩]⟩] 1 endP).1, startV := ⟨0, start⟩, endV := (merge_point [⟨POLY_BARRED_ACCESS, [⟨0, start⟩]⟩] 1 endP).2.2, prependPoint := none, appendPoint := none, width := w, height := h } (merge_point [⟨POLY_BARRED_ACCESS, [⟨0, start⟩]⟩] 1 endP).2.1 = ConvRes.ok (twoPointState start endP w h) 2
    rw [hm2]
    rfl
  have hsel1 : selectMin (twoPointInit start endP).costF [⟨0, start⟩] =
      some ⟨0, start⟩ := by
    unfold selectMin
    rw [List.foldl_cons, List.foldl_nil]
    dsimp only
    split_ifs with hc
    · rfl
    · exact absurd hlt hc
  have hD2 : ((twoPointInit start endP).costG (0 : Nat) + pdist start endP) % 2 ^ 32 <
      (twoPointInit start endP).costG (1 : Nat) := by
    show (0 + pdist start endP) % 2 ^ 32 < HUGE_DISTANCE
    rw [hmod]
    exact hlt
  have hbody : astarBody (twoPointState start endP w h) true (twoPointInit start endP)
      ⟨0, start⟩ = twoPointAfter start endP := by
    show relaxNew (twoPointState start endP w h) ⟨0, start⟩ ⟨1, endP⟩ { openS := [⟨1, endP⟩], closedS := [⟨0, start⟩], costG := (twoPointInit start endP).costG, costF := (twoPointInit start endP).costF, pathPrev := (twoPointInit start endP).pathPrev } = twoPointAfter start endP
    unfold relaxNew
    split_ifs with hc
    · rfl
    · exact absurd hD2 hc
  have hstep1 : astarLoop (twoPointState start endP w h) true 3 (twoPointInit start endP) =
      astarLoop (twoPointState start endP w h) true 2
        (astarBody (twoPointState start endP w h) true (twoPointInit start endP)
          ⟨0, start⟩) := by
    show (match selectMin (twoPointInit start endP).costF [(⟨0, start⟩ : Vertex)] with
      | none => (twoPointInit start endP, true)
      | some m => if m.vid == (1 : Nat) then (twoPointInit start endP, true)
        else astarLoop (twoPointState start endP w h) true 2
          (astarBody (twoPointState start endP w h) true (twoPointInit start endP) m)) =
      astarLoop (twoPointState start endP w h) true 2
        (astarBody (twoPointState start endP w h) true (twoPointInit start endP)
          ⟨0, start⟩)
    rw [hsel1]
    rfl
  have hF1 : ((0 + pdist start endP) % 2 ^ 32 + pdist endP endP) % 2 ^ 32 <
      HUGE_DISTANCE := by
    rw [pdist_self, Nat.add_zero, hmod, Nat.mod_eq_of_lt]
    · exact hlt
    · unfold HUGE_DISTANCE at hlt
      omega
  have hsel2 : selectMin (twoPointAfter start endP).costF [⟨1, endP⟩] =
      some ⟨1, endP⟩ := by
    unfold selectMin
    rw [List.foldl_cons, List.foldl_nil]
    dsimp only
    split_ifs with hc
    · rfl
    · exact absurd hF1 hc
  have hstep2 : astarLoop (twoPointState start endP w h) true 2
      (twoPointAfter start endP) = (twoPointAfter start endP, true) := by
    show (match selectMin (twoPointAfter start endP).costF [(⟨1, endP⟩ : Vertex)] with
      | none => (twoPointAfter start endP, true)
      | some m => if m.vid == (1 : Nat) then (twoPointAfter start endP, true)
        else astarLoop (twoPointState start endP w h) true 1
          (astarBody (twoPointState start endP w h) true (twoPointAfter start endP) m)) =
      (twoPointAfter start endP, true)
    rw [hsel2]
    rfl
  unfold avoidPath
  rw [hcps]
  show output_path (twoPointState start endP w h)
    (astarLoop (twoPointState start endP w h) true 3 (twoPointInit start endP)).1 3 =
    some [start, endP, sentinelPt]
  rw [hstep1, hbody, hstep2]
  rfl

/-- Witness for C2 at start (0, 0), end (10, 0), bounds 320 by 190 and
optimisation level 1 (scenario A of the specification). -/
theorem avoidPath_empty_scene_witness :
    ((⟨0, 0⟩ : Point) ≠ ⟨10, 0⟩) ∧ ((1 : Nat) = 1 ∨ (1 : Nat) = 2) ∧
    int16Range ⟨0, 0⟩ ∧ int16Range ⟨10, 0⟩ ∧
    avoidPath [] ⟨0, 0⟩ ⟨10, 0⟩ 320 190 1 = some [⟨0, 0⟩, ⟨10, 0⟩, sentinelPt] :=
  ⟨by decide, Or.inl rfl, by decide, by decide,
    avoidPath_empty_scene ⟨0, 0⟩ ⟨10, 0⟩ 320 190 1 (by decide) (Or.inl rfl)
      (by decide) (by decide)⟩

end KPathing
